import Mathlib

/-!
Verification of the ReliefChain backend priority-queue core.

Shallow embedding of:
- the priority calculator utility (src/utils/priorityCalculator.js),
- the ReliefRequest schema method calculatePriority (src/models/ReliefRequest.js),
- the MaxHeapPriorityQueue class (src/services/… MaxHeapPriorityQueue),
- the separate (buggy) MaxHeap class in src/services/priorityQueue.js.

Numbers: JS numeric scores are modelled by ℚ (exact arithmetic of the
formulas in the source); timestamps are modelled as Int milliseconds, and
the ambient current time `now` is passed explicitly to every operation
that reads the clock in the source.  The Redis mirror (syncToRedis) is a
fire-and-forget external side effect that never influences the in-memory
state, so it is not part of the state model.  JS Map is modelled by a
function `Nat → Option Nat` (get/set/delete are its only uses in the
source; it is never iterated).  Loops in the source are modelled by
structural recursion on an explicit fuel argument that provably dominates
the number of iterations, keeping every definition kernel-computable.
-/

namespace ReliefChainVerify

/-! ## Priority function (src/utils/priorityCalculator.js) -/

/-- JS Math.round: rounds half away from zero upward, i.e. floor of x + 1/2
(Rat.floor is the computable floor on ℚ, equal to Int.floor by
Rat.floor_def). -/
def jsRound (q : ℚ) : ℤ := Rat.floor (q + 1/2)

/-- Math.round(x * 100) / 100 as in the source: round to two decimal places. -/
def round2 (q : ℚ) : ℚ := (jsRound (q * 100) : ℚ) / 100

/-- WEIGHTS.VULNERABILITY from the source. -/
def WEIGHT_VULNERABILITY : ℚ := 5

/-- WEIGHTS.MEDICAL_URGENCY from the source. -/
def WEIGHT_MEDICAL_URGENCY : ℚ := 10

/-- WEIGHTS.WAITING_TIME from the source (0.1). -/
def WEIGHT_WAITING_TIME : ℚ := 1/10

/-- calculatePriority(vulnerabilityScore, medicalUrgencyScore, createdAt) of
src/utils/priorityCalculator.js, with the implicit clock read `new Date()`
made explicit as the argument `now` (milliseconds).  Clamps negative waiting
time at zero and rounds the result to two decimals. -/
def calculatePriority (vulnerabilityScore medicalUrgencyScore : ℚ)
    (createdAt now : ℤ) : ℚ :=
  let waitingTimeMs : ℚ := (now : ℚ) - (createdAt : ℚ)
  let waitingTimeMinutes : ℚ := max 0 (waitingTimeMs / 60000)
  let priorityScore : ℚ :=
    vulnerabilityScore * WEIGHT_VULNERABILITY +
    medicalUrgencyScore * WEIGHT_MEDICAL_URGENCY +
    waitingTimeMinutes * WEIGHT_WAITING_TIME
  round2 priorityScore

/-- reliefRequestSchema.methods.calculatePriority of src/models/ReliefRequest.js:
same weights, but no clamping of negative waiting time and no rounding. -/
def methodCalculatePriority (vulnerabilityScore medicalUrgencyScore : ℚ)
    (createdAt now : ℤ) : ℚ :=
  let waitingTimeMs : ℚ := (now : ℚ) - (createdAt : ℚ)
  let waitingTimeMinutes : ℚ := waitingTimeMs / 60000
  let W1 : ℚ := 5
  let W2 : ℚ := 10
  let W3 : ℚ := 1/10
  vulnerabilityScore * W1 + medicalUrgencyScore * W2 + waitingTimeMinutes * W3

/-- Elapsed minutes between createdAt and now (spec formula vocabulary). -/
def minutesElapsed (createdAt now : ℤ) : ℚ := ((now : ℚ) - (createdAt : ℚ)) / 60000

/-- Unclamped, unrounded raw score, as computed by the schema method. -/
def rawScore (v u : ℚ) (createdAt now : ℤ) : ℚ :=
  v * 5 + u * 10 + (((now : ℚ) - (createdAt : ℚ)) / 60000) * (1/10)

/-! ## Data model -/

/-- One scheduler entry: id (opaque, modelled by Nat), fixed scoring inputs,
creation timestamp in milliseconds, and the derived priorityScore. -/
structure Entry where
  id : Nat
  vulnerabilityScore : ℚ
  medicalUrgencyScore : ℚ
  createdAt : ℤ
  priorityScore : ℚ
deriving DecidableEq

instance : Inhabited Entry := ⟨⟨0, 0, 0, 0, 0⟩⟩

/-- The identifier index: JS Map keyed by id, never iterated in the source,
so it is modelled as a function to Option. -/
def RMap : Type := Nat → Option Nat

/-- Map.set. -/
def mapSet (m : RMap) (k v : Nat) : RMap := fun q => if q = k then some v else m q

/-- Map.delete. -/
def mapDelete (m : RMap) (k : Nat) : RMap := fun q => if q = k then none else m q

/-- The empty Map. -/
def emptyMap : RMap := fun _ => none

/-- Array read heap[i] (always used in bounds in the source). -/
def nth (l : List Entry) (i : Nat) : Entry := l.getD i default

/-- MaxHeapPriorityQueue state: the heap array and the id → index map. -/
structure MaxHeapPriorityQueue where
  heap : List Entry
  requestMap : RMap

/-- The constructor state: empty heap, empty map. -/
def emptyQ : MaxHeapPriorityQueue := ⟨[], emptyMap⟩

/-! ## MaxHeapPriorityQueue operations -/

/-- getParentIndex: Math.floor((index - 1) / 2), JS floor division on ints. -/
def getParentIndex (i : Nat) : ℤ := Int.fdiv ((i : ℤ) - 1) 2

/-- getLeftChildIndex. -/
def getLeftChildIndex (i : Nat) : Nat := 2 * i + 1

/-- getRightChildIndex. -/
def getRightChildIndex (i : Nat) : Nat := 2 * i + 2

/-- hasParent: getParentIndex(index) >= 0. -/
def hasParent (i : Nat) : Bool := decide (0 ≤ getParentIndex i)

/-- hasLeftChild. -/
def hasLeftChild (h : List Entry) (i : Nat) : Bool :=
  decide (getLeftChildIndex i < h.length)

/-- hasRightChild. -/
def hasRightChild (h : List Entry) (i : Nat) : Bool :=
  decide (getRightChildIndex i < h.length)

/-- parent(index): this.heap[this.getParentIndex(index)]; only read under
hasParent in the source, where the index is nonnegative. -/
def parentE (h : List Entry) (i : Nat) : Entry := nth h (getParentIndex i).toNat

/-- swap(index1, index2) on the heap array. -/
def swap (h : List Entry) (i j : Nat) : List Entry :=
  (h.set i (nth h j)).set j (nth h i)

/-- updateMapIndices(index1, index2): re-register both positions, guarded by
truthiness of the array slots (an Entry object is always truthy; the slot is
falsy exactly when the index is out of range). -/
def updateMapIndices (h : List Entry) (m : RMap) (i j : Nat) : RMap :=
  let m1 := if i < h.length then mapSet m (nth h i).id i else m
  if j < h.length then mapSet m1 (nth h j).id j else m1

/-- bubbleUp while-loop body; fuel dominates the iteration count because the
index strictly decreases (index → (index-1)/2), so fuel = start index is
always enough. -/
def bubbleUpGo (h : List Entry) (m : RMap) (i : Nat) : Nat → List Entry × RMap
  | 0 => (h, m)
  | fuel + 1 =>
    if hasParent i ∧ (parentE h i).priorityScore < (nth h i).priorityScore then
      let p := (i - 1) / 2
      let h2 := swap h p i
      let m2 := updateMapIndices h2 m p i
      bubbleUpGo h2 m2 p fuel
    else (h, m)

/-- bubbleUp(index). -/
def bubbleUp (h : List Entry) (m : RMap) (i : Nat) : List Entry × RMap :=
  bubbleUpGo h m i i

/-- sinkDown while-loop body; the index strictly increases and stays below the
(unchanged) array length, so fuel = array length is always enough. -/
def sinkDownGo (h : List Entry) (m : RMap) (i : Nat) : Nat → List Entry × RMap
  | 0 => (h, m)
  | fuel + 1 =>
    if hasLeftChild h i then
      let largerChildIndex :=
        if hasRightChild h i ∧
            (nth h (getRightChildIndex i)).priorityScore >
            (nth h (getLeftChildIndex i)).priorityScore then
          getRightChildIndex i
        else
          getLeftChildIndex i
      if (nth h i).priorityScore ≥ (nth h largerChildIndex).priorityScore then
        (h, m)
      else
        let h2 := swap h i largerChildIndex
        let m2 := updateMapIndices h2 m i largerChildIndex
        sinkDownGo h2 m2 largerChildIndex fuel
    else (h, m)

/-- sinkDown(index). -/
def sinkDown (h : List Entry) (m : RMap) (i : Nat) : List Entry × RMap :=
  sinkDownGo h m i h.length

/-- Recompute the priority score of an entry at instant now, as every mutation
in the source does via calculatePriority. -/
def rescore (now : ℤ) (e : Entry) : Entry :=
  { e with priorityScore :=
      calculatePriority e.vulnerabilityScore e.medicalUrgencyScore e.createdAt now }

/-- insert(request): score, push, register the index, bubbleUp; returns the
scored request.  syncToRedis is external and stateless for the heap. -/
def insert (q : MaxHeapPriorityQueue) (request : Entry) (now : ℤ) :
    MaxHeapPriorityQueue × Entry :=
  let r := rescore now request
  let h := q.heap ++ [r]
  let m := mapSet q.requestMap r.id (h.length - 1)
  let p := bubbleUp h m (h.length - 1)
  (⟨p.1, p.2⟩, r)

/-- extractMax(). -/
def extractMax (q : MaxHeapPriorityQueue) : Option Entry × MaxHeapPriorityQueue :=
  if q.heap.length = 0 then
    (none, q)
  else if q.heap.length = 1 then
    let maxE := nth q.heap 0
    (some maxE, ⟨[], mapDelete q.requestMap maxE.id⟩)
  else
    let maxE := nth q.heap 0
    let lastE := nth q.heap (q.heap.length - 1)
    let h1 := q.heap.dropLast
    let h2 := h1.set 0 lastE
    let m1 := mapDelete q.requestMap maxE.id
    if 0 < h2.length then
      let m2 := mapSet m1 (nth h2 0).id 0
      let p := sinkDown h2 m2 0
      (some maxE, ⟨p.1, p.2⟩)
    else
      (some maxE, ⟨h2, m1⟩)

/-- peek(). -/
def peek (q : MaxHeapPriorityQueue) : Option Entry :=
  if 0 < q.heap.length then some (nth q.heap 0) else none

/-- removeById(requestId). -/
def removeById (q : MaxHeapPriorityQueue) (requestId : Nat) :
    Option Entry × MaxHeapPriorityQueue :=
  match q.requestMap requestId with
  | none => (none, q)
  | some index =>
    let request := nth q.heap index
    let lastIndex := q.heap.length - 1
    let h1 := if index ≠ lastIndex then swap q.heap index lastIndex else q.heap
    let h2 := h1.dropLast
    let m1 := mapDelete q.requestMap requestId
    if index < h2.length then
      let p := sinkDown h2 m1 index
      let p2 := bubbleUp p.1 p.2 index
      (some request, ⟨p2.1, p2.2⟩)
    else
      (some request, ⟨h2, m1⟩)

/-- updatePriority(requestId, newRequest): the spread merge of a complete
replacement object over the old entry is the replacement itself; then the
score is recomputed and the entry re-sifted; returns heap[index] at the
original index. -/
def updatePriority (q : MaxHeapPriorityQueue) (requestId : Nat)
    (newRequest : Entry) (now : ℤ) : Option Entry × MaxHeapPriorityQueue :=
  match q.requestMap requestId with
  | none => (none, q)
  | some index =>
    let oldPriority := (nth q.heap index).priorityScore
    let updated := rescore now newRequest
    let h1 := q.heap.set index updated
    if updated.priorityScore > oldPriority then
      let p := bubbleUp h1 q.requestMap index
      (some (nth p.1 index), ⟨p.1, p.2⟩)
    else
      let p := sinkDown h1 q.requestMap index
      (some (nth p.1 index), ⟨p.1, p.2⟩)

/-- buildHeap sift loop: for (i = floor(len/2) - 1; i >= 0; i--) sinkDown(i),
written as a count-down recursion (the argument n plays i + 1). -/
def heapifyFrom : List Entry → RMap → Nat → List Entry × RMap
  | h, m, 0 => (h, m)
  | h, m, n + 1 =>
    let p := sinkDown h m n
    heapifyFrom p.1 p.2 n

/-- buildHeap final forEach: set id → index for every position, in index
order (the argument n plays the number of positions already processed). -/
def rebuildMapGo (h : List Entry) (m : RMap) : Nat → RMap
  | 0 => m
  | n + 1 => mapSet (rebuildMapGo h m n) (nth h n).id n

/-- Map rebuild over the whole array. -/
def rebuildMap (h : List Entry) (m : RMap) : RMap := rebuildMapGo h m h.length

/-- buildHeap(). -/
def buildHeap (q : MaxHeapPriorityQueue) : MaxHeapPriorityQueue :=
  let p := heapifyFrom q.heap q.requestMap (q.heap.length / 2)
  ⟨p.1, rebuildMap p.1 p.2⟩

/-- recalculateAllPriorities(): rescore every entry at now, then buildHeap. -/
def recalculateAllPriorities (q : MaxHeapPriorityQueue) (now : ℤ) :
    MaxHeapPriorityQueue :=
  buildHeap ⟨q.heap.map (rescore now), q.requestMap⟩

/-- loadFromArray(requests): replace the heap array with freshly scored copies
of the given requests, then buildHeap.  The requestMap is NOT cleared. -/
def loadFromArray (q : MaxHeapPriorityQueue) (requests : List Entry) (now : ℤ) :
    MaxHeapPriorityQueue :=
  buildHeap ⟨requests.map (rescore now), q.requestMap⟩

/-- A sequence of insert calls, each at its own instant. -/
def insertSeq (q : MaxHeapPriorityQueue) (ps : List (Entry × ℤ)) :
    MaxHeapPriorityQueue :=
  ps.foldl (fun q p => (insert q p.1 p.2).1) q

/-- Repeated extractMax until empty; fuel = heap length dominates since each
successful extraction shrinks the heap by one. -/
def drainGo : Nat → MaxHeapPriorityQueue → List Entry
  | 0, _ => []
  | fuel + 1, q =>
    match extractMax q with
    | (none, _) => []
    | (some e, q2) => e :: drainGo fuel q2

/-- Extract all entries in order. -/
def drain (q : MaxHeapPriorityQueue) : List Entry := drainGo q.heap.length q

/-! ## Specification predicates -/

/-- Max-heap order on all edges whose parent position is ≥ k (k = 0 gives the
full max-heap property). -/
def heapPropFrom (h : List Entry) (k : Nat) : Prop :=
  ∀ i, i < h.length → 0 < i → k ≤ (i - 1) / 2 →
    (nth h i).priorityScore ≤ (nth h ((i - 1) / 2)).priorityScore

/-- The max-heap property. -/
def heapProp (h : List Entry) : Prop := heapPropFrom h 0

/-- The identifier index is a bijection between ids of entries in the heap
array and their positions (claim C1 vocabulary). -/
def mapBijective (q : MaxHeapPriorityQueue) : Prop :=
  (∀ i, i < q.heap.length → q.requestMap ((nth q.heap i).id) = some i) ∧
  (∀ k v, q.requestMap k = some v →
    v < q.heap.length ∧ (nth q.heap v).id = k)

/-- Sift-up invariant: max-heap order everywhere except possibly on the edge
into position j, and the children of j are additionally dominated by the
parent of j. -/
def UpInv (h : List Entry) (j : Nat) : Prop :=
  (∀ i, 0 < i → i < h.length → i ≠ j →
    (nth h i).priorityScore ≤ (nth h ((i - 1) / 2)).priorityScore) ∧
  (0 < j → ∀ c, c < h.length → (c - 1) / 2 = j →
    (nth h c).priorityScore ≤ (nth h ((j - 1) / 2)).priorityScore)

/-- Sift-down invariant over the region of parents ≥ k: max-heap order on all
edges with parent ≥ k except the edges out of j, and the children of j are
dominated by the parent of j whenever that parent is itself in the region. -/
def DownInv (h : List Entry) (k j : Nat) : Prop :=
  k ≤ j ∧
  (∀ i, 0 < i → i < h.length → k ≤ (i - 1) / 2 → (i - 1) / 2 ≠ j →
    (nth h i).priorityScore ≤ (nth h ((i - 1) / 2)).priorityScore) ∧
  (0 < j → k ≤ (j - 1) / 2 → ∀ c, c < h.length → (c - 1) / 2 = j →
    (nth h c).priorityScore ≤ (nth h ((j - 1) / 2)).priorityScore)

/-! ## The buggy MaxHeap class of src/services/priorityQueue.js (claim C10) -/

/-- A thrown JS TypeError (calling a value that is not a function). -/
inductive JsError
  | typeError
deriving DecidableEq

/-- The method names defined on the MaxHeap class in
src/services/priorityQueue.js. -/
def maxHeapClassMethods : List String :=
  ["constructor", "insert", "bubbleUp", "extractMax", "sinkDown", "peek", "size"]

/-- MaxHeap.insert of src/services/priorityQueue.js: pushes the request, then
evaluates this.bubbleup() — the property lookup for the lowercase name
resolves no method of the class, so the call throws a TypeError after the
push. -/
def buggyInsert (heap : List Entry) (request : Entry) :
    Except JsError (List Entry) :=
  let heap2 := heap ++ [request]
  if maxHeapClassMethods.contains ("bubbleup") then
    Except.ok heap2
  else
    Except.error JsError.typeError

/-! ## Concrete states for counterexamples and witnesses -/

/-- Concrete entry with id 1 (score 55 at its creation instant). -/
def eA : Entry := ⟨1, 1, 5, 0, 0⟩

/-- Concrete entry with id 2 (score 30 at its creation instant). -/
def eB : Entry := ⟨2, 2, 2, 0, 0⟩

/-- Concrete entry with id 3 (score 25 at its creation instant). -/
def eC : Entry := ⟨3, 3, 1, 0, 0⟩

/-- Concrete entry for the C3 witness. -/
def eW : Entry := ⟨7, 1, 1, 0, 0⟩

/-- Failing input for claim C1: insert three entries in descending score
order (no sift movement), then removeById the middle one. -/
def qC1 : MaxHeapPriorityQueue :=
  (removeById (insertSeq emptyQ [(eA, 0), (eB, 0), (eC, 0)]) 2).2

/-- A queue holding id 1, used as pre-existing state for the C5 counterexample. -/
def qPre : MaxHeapPriorityQueue := (insert emptyQ eA 0).1

/-- loadFromArray on the non-empty qPre with a fresh entry of id 2. -/
def qC5 : MaxHeapPriorityQueue := loadFromArray qPre [eB] 0

/-- eA as scored at instant 0 (55 = 1·5 + 5·10). -/
def entryA : Entry := ⟨1, 1, 5, 0, 55⟩

/-- eB as scored at instant 0 (30 = 2·5 + 2·10). -/
def entryB : Entry := ⟨2, 2, 2, 0, 30⟩

/-- eC as scored at instant 0 (25 = 3·5 + 1·10). -/
def entryC : Entry := ⟨3, 3, 1, 0, 25⟩

/-- The identifier index after the three inserts of the C1 run. -/
def mapABC : RMap := mapSet (mapSet (mapSet emptyMap 1 0) 2 1) 3 2

/-! # Theorems -/

/-! ## Arithmetic evaluation helpers -/

/-- jsRound agrees with the Int.floor formulation (used for numeric
evaluation, since norm_num knows Int.floor). -/
theorem jsRound_eq (q : ℚ) : jsRound q = ⌊q + 1/2⌋ := by
  rw [jsRound, Rat.floor_def', ← Rat.floor_def]

/-! ## Claim C2 -/

/-- C2: calculatePriority(v, u, t) at instant now equals the spec formula
v·5 + u·10 + max(0, minutes elapsed)·0.1 rounded to two decimal places, and
when now precedes t the wait term contributes exactly 0. -/
theorem C2_calculatePriority_formula (v u : ℚ) (t now : ℤ) :
    calculatePriority v u t now =
      round2 (v * 5 + u * 10 + max 0 (minutesElapsed t now) * (1/10)) ∧
    (now < t → calculatePriority v u t now = round2 (v * 5 + u * 10)) := by
  constructor
  · rfl
  · intro hlt
    show round2 (v * WEIGHT_VULNERABILITY + u * WEIGHT_MEDICAL_URGENCY +
      max 0 (((now : ℚ) - (t : ℚ)) / 60000) * WEIGHT_WAITING_TIME) = _
    have hneg : ((now : ℚ) - (t : ℚ)) / 60000 ≤ 0 := by
      apply div_nonpos_of_nonpos_of_nonneg
      · have : (now : ℚ) ≤ (t : ℚ) := by exact_mod_cast le_of_lt hlt
        linarith
      · norm_num
    rw [max_eq_left hneg]
    norm_num [WEIGHT_VULNERABILITY, WEIGHT_MEDICAL_URGENCY]

/-- Witness for C2 at v = 1, u = 1, createdAt = 60000 ms, now = 0. -/
theorem C2_calculatePriority_formula_witness :
    (0 : ℤ) < 60000 ∧ calculatePriority 1 1 60000 0 = round2 (1 * 5 + 1 * 10) :=
  ⟨by decide, (C2_calculatePriority_formula 1 1 60000 0).2 (by decide)⟩

/-! ## Claim C6 -/

/-- C6: on an empty queue, extractMax and peek both return null without
mutating the heap array or the identifier index. -/
theorem C6_empty_extract_peek (q : MaxHeapPriorityQueue) (hq : q.heap = []) :
    extractMax q = (none, q) ∧ peek q = none := by
  constructor
  · unfold extractMax
    rw [hq]
    simp
  · unfold peek
    rw [hq]
    simp

/-- Witness for C6 on the constructor state. -/
theorem C6_empty_extract_peek_witness :
    extractMax emptyQ = (none, emptyQ) ∧ peek emptyQ = none :=
  C6_empty_extract_peek emptyQ rfl

/-! ## Claim C7 -/

/-- C7: removeById on an id absent from the identifier index returns null and
leaves the state completely unchanged, and likewise updatePriority. -/
theorem C7_absent_id_noop (q : MaxHeapPriorityQueue) (requestId : Nat)
    (r : Entry) (now : ℤ) (habs : q.requestMap requestId = none) :
    removeById q requestId = (none, q) ∧
    updatePriority q requestId r now = (none, q) := by
  constructor
  · unfold removeById
    rw [habs]
  · unfold updatePriority
    rw [habs]

/-- Witness for C7: id 5 is absent from the empty queue. -/
theorem C7_absent_id_noop_witness :
    removeById emptyQ 5 = (none, emptyQ) ∧
    updatePriority emptyQ 5 eA 0 = (none, emptyQ) :=
  C7_absent_id_noop emptyQ 5 eA 0 rfl

/-! ## Claim C9 -/

/-- C9 counterexample: the schema method and the utility disagree, both on a
negative elapsed time (method does not clamp) and on a tiny positive elapsed
time (method does not round). -/
theorem C9_counterexample :
    methodCalculatePriority 1 1 600000 0 ≠ calculatePriority 1 1 600000 0 ∧
    methodCalculatePriority 1 1 0 600 ≠ calculatePriority 1 1 0 600 := by
  have h1 : methodCalculatePriority 1 1 600000 0 = 14 := by
    simp only [methodCalculatePriority]
    norm_num
  have h2 : calculatePriority 1 1 600000 0 = 15 := by
    simp only [calculatePriority, WEIGHT_VULNERABILITY, WEIGHT_MEDICAL_URGENCY,
      WEIGHT_WAITING_TIME, round2, jsRound_eq]
    norm_num
  have h3 : methodCalculatePriority 1 1 0 600 = 15001/1000 := by
    simp only [methodCalculatePriority]
    norm_num
  have h4 : calculatePriority 1 1 0 600 = 15 := by
    simp only [calculatePriority, WEIGHT_VULNERABILITY, WEIGHT_MEDICAL_URGENCY,
      WEIGHT_WAITING_TIME, round2, jsRound_eq]
    norm_num
  rw [h1, h2, h3, h4]
  norm_num

/-- C9 amended: the utility clamps elapsed time at zero and rounds to two
decimals while the schema method does neither, so the two disagree in
general; they do agree whenever the elapsed time is nonnegative and the raw
score is stable under two-decimal rounding (a sufficient condition). -/
theorem C9_amended_agreement (v u : ℚ) (t now : ℤ) (h1 : t ≤ now)
    (h2 : round2 (rawScore v u t now) = rawScore v u t now) :
    methodCalculatePriority v u t now = calculatePriority v u t now := by
  have hm : methodCalculatePriority v u t now = rawScore v u t now := rfl
  have hnn : 0 ≤ ((now : ℚ) - (t : ℚ)) / 60000 := by
    apply div_nonneg
    · have : (t : ℚ) ≤ (now : ℚ) := by exact_mod_cast h1
      linarith
    · norm_num
  have hc : calculatePriority v u t now = round2 (rawScore v u t now) := by
    show round2 (v * WEIGHT_VULNERABILITY + u * WEIGHT_MEDICAL_URGENCY +
      max 0 (((now : ℚ) - (t : ℚ)) / 60000) * WEIGHT_WAITING_TIME) = _
    rw [max_eq_right hnn]
    norm_num [rawScore, WEIGHT_VULNERABILITY, WEIGHT_MEDICAL_URGENCY,
      WEIGHT_WAITING_TIME]
  rw [hm, hc, h2]

/-- Witness for the amended C9 at v = u = 1, t = now = 0. -/
theorem C9_amended_agreement_witness :
    methodCalculatePriority 1 1 0 0 = calculatePriority 1 1 0 0 :=
  C9_amended_agreement 1 1 0 0 (by decide)
    (by simp only [rawScore, round2, jsRound_eq]; norm_num)

/-! ## Claim C10 -/

/-- C10: every call to insert on the MaxHeap class of
src/services/priorityQueue.js throws a TypeError (this.bubbleup is not a
method of the class), so insert never returns normally for any input. -/
theorem C10_insert_always_throws (heap : List Entry) (request : Entry) :
    buggyInsert heap request = Except.error JsError.typeError := by
  unfold buggyInsert
  rw [if_neg]
  intro hcontains
  revert hcontains
  decide


/-! ## List access helper lemmas -/

theorem nth_eq_getElem (l : List Entry) (i : Nat) (hi : i < l.length) :
    nth l i = l[i] := List.getD_eq_getElem l default hi

theorem nth_eq_some (l : List Entry) (i : Nat) :
    nth l i = (l[i]?).getD default := List.getD_eq_getElem?_getD l i default

theorem nth_cons_zero (x : Entry) (t : List Entry) : nth (x :: t) 0 = x := rfl

theorem nth_cons_succ (x : Entry) (t : List Entry) (n : Nat) :
    nth (x :: t) (n + 1) = nth t n := rfl

theorem nth_set_self (l : List Entry) (i : Nat) (a : Entry) (hi : i < l.length) :
    nth (l.set i a) i = a := by
  simp [nth_eq_some, List.getElem?_set, hi]

theorem nth_set_ne (l : List Entry) (i j : Nat) (a : Entry) (hij : i ≠ j) :
    nth (l.set i a) j = nth l j := by
  simp [nth_eq_some, List.getElem?_set_ne hij]

theorem length_swap (l : List Entry) (i j : Nat) :
    (swap l i j).length = l.length := by
  simp [swap]

theorem nth_swap_right (l : List Entry) (i j : Nat) (hj : j < l.length) :
    nth (swap l i j) j = nth l i := by
  rw [swap, nth_set_self]
  simpa using hj

theorem nth_swap_left (l : List Entry) (i j : Nat) (hi : i < l.length)
    (hj : j < l.length) : nth (swap l i j) i = nth l j := by
  by_cases hij : i = j
  · subst hij
    exact nth_swap_right l i i hi
  · rw [swap, nth_set_ne _ _ _ _ (Ne.symm hij), nth_set_self _ _ _ hi]

theorem nth_swap_other (l : List Entry) (i j k : Nat) (hki : k ≠ i)
    (hkj : k ≠ j) : nth (swap l i j) k = nth l k := by
  rw [swap, nth_set_ne _ _ _ _ (Ne.symm hkj), nth_set_ne _ _ _ _ (Ne.symm hki)]

theorem count_set_add (l : List Entry) (i : Nat) (a b : Entry)
    (hi : i < l.length) :
    (l.set i a).count b + (if nth l i = b then 1 else 0) =
      l.count b + (if a = b then 1 else 0) := by
  induction l generalizing i with
  | nil => simp at hi
  | cons x t ih =>
    cases i with
    | zero =>
      simp only [List.set_cons_zero, List.count_cons, nth_cons_zero, beq_iff_eq]
      split_ifs <;> omega
    | succ n =>
      have hn : n < t.length := by simpa using hi
      have hrec := ih n hn
      simp only [List.set_cons_succ, List.count_cons, nth_cons_succ, beq_iff_eq]
      split_ifs at hrec ⊢ <;> omega

theorem count_swap (l : List Entry) (i j : Nat) (b : Entry) (hi : i < l.length)
    (hj : j < l.length) : (swap l i j).count b = l.count b := by
  have h1 := count_set_add l i (nth l j) b hi
  have hlen : (l.set i (nth l j)).length = l.length := by simp
  have h2 := count_set_add (l.set i (nth l j)) j (nth l i) b
    (by rw [hlen]; exact hj)
  by_cases hij : i = j
  · subst hij
    rw [nth_set_self _ _ _ hi] at h2
    rw [swap]
    split_ifs at h1 h2 <;> omega
  · rw [nth_set_ne _ _ _ _ hij] at h2
    rw [swap]
    split_ifs at h1 h2 <;> omega

theorem swap_perm (l : List Entry) (i j : Nat) (hi : i < l.length)
    (hj : j < l.length) : (swap l i j).Perm l :=
  List.perm_iff_count.mpr fun b => count_swap l i j b hi hj

theorem nth_append_left (l l2 : List Entry) (i : Nat) (hi : i < l.length) :
    nth (l ++ l2) i = nth l i := by
  simp [nth_eq_some, List.getElem?_append, hi]

theorem nth_concat_self (l : List Entry) (e : Entry) :
    nth (l ++ [e]) l.length = e := by
  simp [nth_eq_some]

theorem nth_dropLast (l : List Entry) (i : Nat) (hi : i < l.length - 1) :
    nth l.dropLast i = nth l i := by
  rw [nth_eq_some, nth_eq_some, List.getElem?_dropLast, if_pos hi]

theorem dropLast_concat_nth (l : List Entry) (hl : l ≠ []) :
    l.dropLast ++ [nth l (l.length - 1)] = l := by
  have h0 : 0 < l.length := List.length_pos.mpr hl
  have h := List.dropLast_append_getLast hl
  have h2 : l.getLast hl = nth l (l.length - 1) := by
    rw [List.getLast_eq_getElem _ hl, nth_eq_getElem _ _ (by omega)]
  rw [h2] at h
  exact h

theorem count_concat_entry (l : List Entry) (e b : Entry) :
    (l ++ [e]).count b = l.count b + (if e = b then 1 else 0) := by
  simp [List.count_append, List.count_cons, beq_iff_eq]

/-! ## Index bridging lemmas -/

theorem hasParent_iff (i : Nat) : hasParent i = true ↔ 1 ≤ i := by
  cases i with
  | zero => decide
  | succ n =>
    simp only [hasParent, decide_eq_true_iff, getParentIndex]
    constructor
    · intro _
      omega
    · intro _
      apply Int.fdiv_nonneg
      · push_cast
        omega
      · omega

theorem getParentIndex_toNat (i : Nat) (hi : 1 ≤ i) :
    (getParentIndex i).toNat = (i - 1) / 2 := by
  rw [getParentIndex, Int.fdiv_eq_ediv _ (by norm_num)]
  omega

theorem parentE_eq (h : List Entry) (i : Nat) (hi : 1 ≤ i) :
    parentE h i = nth h ((i - 1) / 2) := by
  rw [parentE, getParentIndex_toNat i hi]

theorem hasLeftChild_iff (h : List Entry) (i : Nat) :
    hasLeftChild h i = true ↔ 2 * i + 1 < h.length := by
  simp [hasLeftChild, getLeftChildIndex]

theorem hasRightChild_iff (h : List Entry) (i : Nat) :
    hasRightChild h i = true ↔ 2 * i + 2 < h.length := by
  simp [hasRightChild, getRightChildIndex]

/-! ## Map pointwise lemmas -/

theorem mapSet_self (m : RMap) (k v : Nat) : mapSet m k v k = some v := by
  simp [mapSet]

theorem mapSet_ne (m : RMap) (k v q : Nat) (h : q ≠ k) : mapSet m k v q = m q := by
  simp [mapSet, h]

/-! ## Heap property basics -/

theorem heapProp_nil : heapProp ([] : List Entry) := by
  intro i hi
  simp at hi

theorem heapProp_singleton (e : Entry) : heapProp [e] := by
  intro i hi h0
  simp at hi
  omega

/-- In a max-heap, the root dominates every position. -/
theorem nth_le_root (h : List Entry) (hp : heapProp h) :
    ∀ i, i < h.length → (nth h i).priorityScore ≤ (nth h 0).priorityScore := by
  intro i
  induction i using Nat.strong_induction_on with
  | _ i ih =>
    intro hilen
    rcases Nat.eq_zero_or_pos i with h0 | h0
    · subst h0
      exact le_refl _
    · have h1 : (nth h i).priorityScore ≤ (nth h ((i - 1) / 2)).priorityScore :=
        hp i hilen h0 (by omega)
      have h2 := ih ((i - 1) / 2) (by omega) (by omega)
      exact le_trans h1 h2

/-- In a max-heap, the root dominates every member. -/
theorem mem_le_root (h : List Entry) (hp : heapProp h) (e : Entry) (he : e ∈ h) :
    e.priorityScore ≤ (nth h 0).priorityScore := by
  obtain ⟨i, hi, rfl⟩ := List.mem_iff_getElem.mp he
  rw [← nth_eq_getElem _ _ hi]
  exact nth_le_root h hp i hi

/-! ## Sift-up correctness -/

/-- One bubbleUp swap step preserves the sift-up invariant at the parent. -/
theorem upInv_step (h : List Entry) (j : Nat) (hjlen : j < h.length)
    (hinv : UpInv h j) (hj1 : 1 ≤ j)
    (hlt : (nth h ((j - 1) / 2)).priorityScore < (nth h j).priorityScore) :
    UpInv (swap h ((j - 1) / 2) j) ((j - 1) / 2) := by
  set p := (j - 1) / 2 with hpdef
  have hpj : p < j := by omega
  have hplen : p < h.length := by omega
  have hswlen : (swap h p j).length = h.length := length_swap h p j
  have hnp : nth (swap h p j) p = nth h j := nth_swap_left h p j hplen hjlen
  have hnj : nth (swap h p j) j = nth h p := nth_swap_right h p j hjlen
  have hno : ∀ k, k ≠ p → k ≠ j → nth (swap h p j) k = nth h k :=
    fun k hk1 hk2 => nth_swap_other h p j k hk1 hk2
  constructor
  · intro i hi0 hilen hip
    rw [hswlen] at hilen
    by_cases hij : i = j
    · subst hij
      rw [hnj, hnp]
      exact le_of_lt hlt
    · have hi_other : nth (swap h p j) i = nth h i := hno i hip hij
      by_cases hpi_j : (i - 1) / 2 = j
      · rw [hi_other, hpi_j, hnj]
        exact hinv.2 (by omega) i hilen hpi_j
      · by_cases hpi_p : (i - 1) / 2 = p
        · rw [hi_other, hpi_p, hnp]
          have h1 := hinv.1 i hi0 hilen hij
          rw [hpi_p] at h1
          exact le_trans h1 (le_of_lt hlt)
        · rw [hi_other, hno _ hpi_p hpi_j]
          exact hinv.1 i hi0 hilen hij
  · intro hp0 c hclen hparc
    rw [hswlen] at hclen
    have hgj : (p - 1) / 2 ≠ j := by omega
    have hgp2 : (p - 1) / 2 ≠ p := by omega
    rw [hno _ hgp2 hgj]
    by_cases hcj : c = j
    · subst hcj
      rw [hnj]
      exact hinv.1 p hp0 hplen (by omega)
    · have hcp : c ≠ p := by omega
      rw [hno c hcp hcj]
      have hc0 : 0 < c := by omega
      have h1 := hinv.1 c hc0 hclen hcj
      rw [hparc] at h1
      have h2 := hinv.1 p hp0 hplen (by omega)
      exact le_trans h1 h2

/-- When the bubbleUp loop stops, the invariant yields the heap property. -/
theorem upInv_stop (h : List Entry) (j : Nat) (hinv : UpInv h j)
    (hstop : ¬(hasParent j = true ∧
      (parentE h j).priorityScore < (nth h j).priorityScore)) :
    heapProp h := by
  intro i hilen hi0 _
  by_cases hij : i = j
  · subst hij
    have hp : hasParent i = true := (hasParent_iff i).mpr (by omega)
    have hnlt : ¬ (parentE h i).priorityScore < (nth h i).priorityScore :=
      fun hc => hstop ⟨hp, hc⟩
    rw [parentE_eq h i (by omega)] at hnlt
    exact le_of_not_lt hnlt
  · exact hinv.1 i hi0 hilen hij

/-- bubbleUpGo establishes the heap property from the sift-up invariant
whenever the fuel dominates the index. -/
theorem bubbleUpGo_heapProp : ∀ (fuel : Nat) (h : List Entry) (m : RMap)
    (j : Nat), j ≤ fuel → j < h.length → UpInv h j →
    heapProp (bubbleUpGo h m j fuel).1 := by
  intro fuel
  induction fuel with
  | zero =>
    intro h m j hj hjlen hinv
    show heapProp h
    apply upInv_stop h j hinv
    rintro ⟨hp, -⟩
    rw [hasParent_iff] at hp
    omega
  | succ fuel ih =>
    intro h m j hj hjlen hinv
    simp only [bubbleUpGo]
    by_cases hcond : hasParent j = true ∧
        (parentE h j).priorityScore < (nth h j).priorityScore
    · rw [if_pos hcond]
      obtain ⟨hp, hlt⟩ := hcond
      rw [hasParent_iff] at hp
      rw [parentE_eq h j hp] at hlt
      apply ih
      · omega
      · rw [length_swap]
        omega
      · exact upInv_step h j hjlen hinv hp hlt
    · rw [if_neg hcond]
      exact upInv_stop h j hinv hcond

/-- bubbleUpGo permutes the heap array. -/
theorem bubbleUpGo_perm : ∀ (fuel : Nat) (h : List Entry) (m : RMap) (j : Nat),
    j < h.length → ((bubbleUpGo h m j fuel).1).Perm h := by
  intro fuel
  induction fuel with
  | zero =>
    intro h m j hj
    exact List.Perm.refl h
  | succ fuel ih =>
    intro h m j hjlen
    simp only [bubbleUpGo]
    by_cases hcond : hasParent j = true ∧
        (parentE h j).priorityScore < (nth h j).priorityScore
    · rw [if_pos hcond]
      have hp : 1 ≤ j := (hasParent_iff j).mp hcond.1
      have hplen : (j - 1) / 2 < h.length := by omega
      have h1 := ih (swap h ((j - 1) / 2) j)
        (updateMapIndices (swap h ((j - 1) / 2) j) m ((j - 1) / 2) j)
        ((j - 1) / 2) (by rw [length_swap]; omega)
      exact h1.trans (swap_perm h ((j - 1) / 2) j hplen hjlen)
    · rw [if_neg hcond]

/-! ## Insert correctness -/

/-- Appending a fresh entry to a max-heap satisfies the sift-up invariant at
the appended position. -/
theorem upInv_concat (h : List Entry) (r : Entry) (hp : heapProp h) :
    UpInv (h ++ [r]) h.length := by
  constructor
  · intro i hi0 hilen hij
    have hilt : i < h.length := by
      simp only [List.length_append, List.length_singleton] at hilen
      omega
    rw [nth_append_left _ _ _ hilt,
      nth_append_left _ _ _ (by omega : (i - 1) / 2 < h.length)]
    exact hp i hilt hi0 (by omega)
  · intro hj0 c hclen hpar
    exfalso
    simp only [List.length_append, List.length_singleton] at hclen
    omega

/-- insert preserves the heap property and appends exactly the rescored
entry, up to permutation. -/
theorem insert_spec (q : MaxHeapPriorityQueue) (e : Entry) (now : ℤ)
    (hp : heapProp q.heap) :
    heapProp ((insert q e now).1).heap ∧
    ((insert q e now).1).heap.Perm (rescore now e :: q.heap) := by
  have hlen : (q.heap ++ [rescore now e]).length - 1 = q.heap.length := by simp
  have hheap : ((insert q e now).1).heap =
      (bubbleUp (q.heap ++ [rescore now e])
        (mapSet q.requestMap (rescore now e).id
          ((q.heap ++ [rescore now e]).length - 1))
        ((q.heap ++ [rescore now e]).length - 1)).1 := rfl
  rw [hheap, bubbleUp, hlen]
  constructor
  · apply bubbleUpGo_heapProp
    · exact le_refl _
    · simp
    · exact upInv_concat q.heap (rescore now e) hp
  · have h1 := bubbleUpGo_perm q.heap.length (q.heap ++ [rescore now e])
      (mapSet q.requestMap (rescore now e).id q.heap.length) q.heap.length
      (by simp)
    exact h1.trans (List.perm_append_singleton _ _)

/-- insertSeq from any heap-ordered state: the heap stays heap-ordered and
holds exactly the rescored inserted entries plus the old contents. -/
theorem insertSeq_spec (ps : List (Entry × ℤ)) :
    ∀ q : MaxHeapPriorityQueue, heapProp q.heap →
    heapProp (insertSeq q ps).heap ∧
    (insertSeq q ps).heap.Perm
      ((ps.map fun p => rescore p.2 p.1) ++ q.heap) := by
  induction ps with
  | nil =>
    intro q hq
    exact ⟨hq, by simp [insertSeq]⟩
  | cons p ps ih =>
    intro q hq
    have hins := insert_spec q p.1 p.2 hq
    have hih := ih (insert q p.1 p.2).1 hins.1
    have hstep : insertSeq q (p :: ps) = insertSeq (insert q p.1 p.2).1 ps := rfl
    rw [hstep]
    refine ⟨hih.1, ?_⟩
    have h1 : (insertSeq (insert q p.1 p.2).1 ps).heap.Perm
        ((ps.map fun p => rescore p.2 p.1) ++ (rescore p.2 p.1 :: q.heap)) :=
      hih.2.trans (List.Perm.append_left _ hins.2)
    have h2 : ((ps.map fun p => rescore p.2 p.1) ++
        (rescore p.2 p.1 :: q.heap)).Perm
        (rescore p.2 p.1 :: ((ps.map fun p => rescore p.2 p.1) ++ q.heap)) :=
      List.perm_middle
    exact h1.trans h2

/-! ## Claim C3 -/

/-- C3: after any nonempty sequence of insert calls on an initially empty
queue, peek returns the entry at the root, and its priorityScore dominates
the priorityScore of every entry in the heap. -/
theorem C3_peek_returns_max (ps : List (Entry × ℤ)) (hne : ps ≠ []) :
    ∃ p, peek (insertSeq emptyQ ps) = some p ∧
      ∀ e ∈ (insertSeq emptyQ ps).heap,
        e.priorityScore ≤ p.priorityScore := by
  obtain ⟨hp, hperm⟩ := insertSeq_spec ps emptyQ heapProp_nil
  have hlen : (insertSeq emptyQ ps).heap.length = ps.length := by
    have h1 := hperm.length_eq
    simpa [emptyQ] using h1
  have hpos : 0 < (insertSeq emptyQ ps).heap.length := by
    rw [hlen]
    exact List.length_pos.mpr hne
  refine ⟨nth (insertSeq emptyQ ps).heap 0, ?_, ?_⟩
  · rw [peek, if_pos hpos]
  · intro e he
    exact mem_le_root _ hp e he

/-- Witness for C3: a single insert. -/
theorem C3_peek_returns_max_witness :
    ∃ p, peek (insertSeq emptyQ [(eW, 0)]) = some p ∧
      ∀ e ∈ (insertSeq emptyQ [(eW, 0)]).heap,
        e.priorityScore ≤ p.priorityScore :=
  C3_peek_returns_max [(eW, 0)] (by simp)

/-! ## Sift-down correctness -/

/-- If j has no left child inside the array, the sift-down invariant already
gives the region heap property. -/
theorem downInv_noLeft (h : List Entry) (k j : Nat) (hinv : DownInv h k j)
    (hnl : ¬ (2 * j + 1 < h.length)) : heapPropFrom h k := by
  intro i hilen hi0 hk
  by_cases hij : (i - 1) / 2 = j
  · exfalso
    omega
  · exact hinv.2.1 i hi0 hilen hk hij

/-- If j dominates the larger child, the sift-down invariant gives the
region heap property. -/
theorem downInv_stop (h : List Entry) (k j lc : Nat) (hinv : DownInv h k j)
    (_hchild : lc = 2 * j + 1 ∨ lc = 2 * j + 2)
    (hdom : ∀ c, (c = 2 * j + 1 ∨ c = 2 * j + 2) → c < h.length →
      (nth h c).priorityScore ≤ (nth h lc).priorityScore)
    (hge : (nth h lc).priorityScore ≤ (nth h j).priorityScore) :
    heapPropFrom h k := by
  intro i hilen hi0 hk
  by_cases hij : (i - 1) / 2 = j
  · have hcases : i = 2 * j + 1 ∨ i = 2 * j + 2 := by omega
    have h1 := hdom i hcases hilen
    rw [hij]
    exact le_trans h1 hge
  · exact hinv.2.1 i hi0 hilen hk hij

/-- One sinkDown swap step preserves the sift-down invariant at the larger
child. -/
theorem downInv_step (h : List Entry) (k j lc : Nat) (hinv : DownInv h k j)
    (hchild : lc = 2 * j + 1 ∨ lc = 2 * j + 2) (hlclen : lc < h.length)
    (hdom : ∀ c, (c = 2 * j + 1 ∨ c = 2 * j + 2) → c < h.length →
      (nth h c).priorityScore ≤ (nth h lc).priorityScore)
    (hlt : (nth h j).priorityScore < (nth h lc).priorityScore) :
    DownInv (swap h j lc) k lc := by
  have hrange : 2 * j + 1 ≤ lc ∧ lc ≤ 2 * j + 2 := by
    rcases hchild with rfl | rfl <;> omega
  have hkj : k ≤ j := hinv.1
  have hjlc : j < lc := by omega
  have hjlen : j < h.length := by omega
  have hswlen : (swap h j lc).length = h.length := length_swap h j lc
  have hnj : nth (swap h j lc) j = nth h lc := nth_swap_left h j lc hjlen hlclen
  have hnlc : nth (swap h j lc) lc = nth h j := nth_swap_right h j lc hlclen
  have hno : ∀ x, x ≠ j → x ≠ lc → nth (swap h j lc) x = nth h x :=
    fun x hx1 hx2 => nth_swap_other h j lc x hx1 hx2
  refine ⟨by omega, ?_, ?_⟩
  · intro i hi0 hilen hk hilc
    rw [hswlen] at hilen
    by_cases hij : i = j
    · subst hij
      have hj1 : 1 ≤ i := hi0
      have hpar_ne_i : (i - 1) / 2 ≠ i := by omega
      have hpar_ne_lc : (i - 1) / 2 ≠ lc := by omega
      rw [hnj, hno _ hpar_ne_i hpar_ne_lc]
      have h3 := hinv.2.2 hi0 hk lc hlclen (by omega)
      exact h3
    · by_cases hilc2 : i = lc
      · subst hilc2
        have hpar : (i - 1) / 2 = j := by omega
        rw [hnlc, hpar, hnj]
        exact le_of_lt hlt
      · by_cases hpi_j : (i - 1) / 2 = j
        · have hcases : i = 2 * j + 1 ∨ i = 2 * j + 2 := by omega
          rw [hno i hij hilc2, hpi_j, hnj]
          exact hdom i hcases hilen
        · rw [hno i hij hilc2, hno _ hpi_j hilc]
          exact hinv.2.1 i hi0 hilen hk hpi_j
  · intro hlc0 hklc c hclen hparc
    rw [hswlen] at hclen
    have hparlc : (lc - 1) / 2 = j := by omega
    have hcj : c ≠ j := by omega
    have hcne : c ≠ lc := by omega
    rw [hparlc, hnj, hno c hcj hcne]
    have h1 := hinv.2.1 c (by omega) hclen (by omega) (by omega)
    rw [hparc] at h1
    exact h1.trans (le_refl _)

/-- sinkDownGo establishes the region heap property from the sift-down
invariant whenever the fuel plus the index dominates the array length. -/
theorem sinkDownGo_heapProp : ∀ (fuel : Nat) (h : List Entry) (m : RMap)
    (k j : Nat), h.length ≤ fuel + j → DownInv h k j →
    heapPropFrom (sinkDownGo h m j fuel).1 k := by
  intro fuel
  induction fuel with
  | zero =>
    intro h m k j hfuel hinv
    show heapPropFrom h k
    exact downInv_noLeft h k j hinv (by omega)
  | succ fuel ih =>
    intro h m k j hfuel hinv
    simp only [sinkDownGo]
    by_cases hlc : hasLeftChild h j = true
    · rw [if_pos hlc]
      rw [hasLeftChild_iff] at hlc
      by_cases hrc : hasRightChild h j = true ∧
          (nth h (getRightChildIndex j)).priorityScore >
          (nth h (getLeftChildIndex j)).priorityScore
      · rw [if_pos hrc]
        obtain ⟨hr, hgt⟩ := hrc
        rw [hasRightChild_iff] at hr
        have hdom : ∀ c, (c = 2 * j + 1 ∨ c = 2 * j + 2) → c < h.length →
            (nth h c).priorityScore ≤
            (nth h (getRightChildIndex j)).priorityScore := by
          rintro c (rfl | rfl) hclen
          · exact le_of_lt hgt
          · exact le_refl _
        by_cases hstop : (nth h j).priorityScore ≥
            (nth h (getRightChildIndex j)).priorityScore
        · rw [if_pos hstop]
          exact downInv_stop h k j (getRightChildIndex j) hinv (Or.inr rfl)
            hdom hstop
        · rw [if_neg hstop]
          apply ih
          · rw [length_swap]
            have : getRightChildIndex j = 2 * j + 2 := rfl
            omega
          · exact downInv_step h k j (getRightChildIndex j) hinv (Or.inr rfl)
              hr hdom (lt_of_not_ge hstop)
      · rw [if_neg hrc]
        have hdom : ∀ c, (c = 2 * j + 1 ∨ c = 2 * j + 2) → c < h.length →
            (nth h c).priorityScore ≤
            (nth h (getLeftChildIndex j)).priorityScore := by
          rintro c (rfl | rfl) hclen
          · exact le_refl _
          · have hnr : ¬ ((nth h (getRightChildIndex j)).priorityScore >
                (nth h (getLeftChildIndex j)).priorityScore) := by
              intro hgt
              exact hrc ⟨(hasRightChild_iff h j).mpr hclen, hgt⟩
            exact le_of_not_lt hnr
        by_cases hstop : (nth h j).priorityScore ≥
            (nth h (getLeftChildIndex j)).priorityScore
        · rw [if_pos hstop]
          exact downInv_stop h k j (getLeftChildIndex j) hinv (Or.inl rfl)
            hdom hstop
        · rw [if_neg hstop]
          apply ih
          · rw [length_swap]
            have : getLeftChildIndex j = 2 * j + 1 := rfl
            omega
          · exact downInv_step h k j (getLeftChildIndex j) hinv (Or.inl rfl)
              hlc hdom (lt_of_not_ge hstop)
    · rw [if_neg hlc]
      rw [hasLeftChild_iff] at hlc
      exact downInv_noLeft h k j hinv hlc

/-- sinkDownGo permutes the heap array. -/
theorem sinkDownGo_perm : ∀ (fuel : Nat) (h : List Entry) (m : RMap) (j : Nat),
    ((sinkDownGo h m j fuel).1).Perm h := by
  intro fuel
  induction fuel with
  | zero =>
    intro h m j
    exact List.Perm.refl h
  | succ fuel ih =>
    intro h m j
    simp only [sinkDownGo]
    by_cases hlc : hasLeftChild h j = true
    · rw [if_pos hlc]
      rw [hasLeftChild_iff] at hlc
      by_cases hrc : hasRightChild h j = true ∧
          (nth h (getRightChildIndex j)).priorityScore >
          (nth h (getLeftChildIndex j)).priorityScore
      · rw [if_pos hrc]
        have hr := (hasRightChild_iff h j).mp hrc.1
        by_cases hstop : (nth h j).priorityScore ≥
            (nth h (getRightChildIndex j)).priorityScore
        · rw [if_pos hstop]
        · rw [if_neg hstop]
          have hgr : getRightChildIndex j = 2 * j + 2 := rfl
          exact (ih _ _ _).trans
            (swap_perm h j (getRightChildIndex j) (by omega)
              (by rw [hgr]; exact hr))
      · rw [if_neg hrc]
        by_cases hstop : (nth h j).priorityScore ≥
            (nth h (getLeftChildIndex j)).priorityScore
        · rw [if_pos hstop]
        · rw [if_neg hstop]
          have hgl : getLeftChildIndex j = 2 * j + 1 := rfl
          exact (ih _ _ _).trans
            (swap_perm h j (getLeftChildIndex j) (by omega)
              (by rw [hgl]; exact hlc))
    · rw [if_neg hlc]

/-- sinkDown on an already heap-ordered array is the identity on heap and
map alike (no swap ever fires). -/
theorem sinkDownGo_id (h : List Entry) (m : RMap) (j : Nat) (fuel : Nat)
    (hp : heapProp h) : sinkDownGo h m j fuel = (h, m) := by
  cases fuel with
  | zero => rfl
  | succ fuel =>
    simp only [sinkDownGo]
    by_cases hlc : hasLeftChild h j = true
    · rw [if_pos hlc]
      rw [hasLeftChild_iff] at hlc
      by_cases hrc : hasRightChild h j = true ∧
          (nth h (getRightChildIndex j)).priorityScore >
          (nth h (getLeftChildIndex j)).priorityScore
      · rw [if_pos hrc]
        have hr := (hasRightChild_iff h j).mp hrc.1
        have hgr : getRightChildIndex j = 2 * j + 2 := rfl
        have hstop : (nth h j).priorityScore ≥
            (nth h (getRightChildIndex j)).priorityScore := by
          have h1 := hp (getRightChildIndex j) (by rw [hgr]; exact hr)
            (by rw [hgr]; omega) (by omega)
          have hpar : (getRightChildIndex j - 1) / 2 = j := by
            rw [hgr]
            omega
          rw [hpar] at h1
          exact h1
        rw [if_pos hstop]
      · rw [if_neg hrc]
        have hgl : getLeftChildIndex j = 2 * j + 1 := rfl
        have hstop : (nth h j).priorityScore ≥
            (nth h (getLeftChildIndex j)).priorityScore := by
          have h1 := hp (getLeftChildIndex j) (by rw [hgl]; exact hlc)
            (by rw [hgl]; omega) (by omega)
          have hpar : (getLeftChildIndex j - 1) / 2 = j := by
            rw [hgl]
            omega
          rw [hpar] at h1
          exact h1
        rw [if_pos hstop]
    · rw [if_neg hlc]

/-! ## sinkDown wrappers -/

theorem sinkDown_heapProp (h : List Entry) (m : RMap) (k j : Nat)
    (hinv : DownInv h k j) : heapPropFrom (sinkDown h m j).1 k :=
  sinkDownGo_heapProp h.length h m k j (by omega) hinv

theorem sinkDown_perm (h : List Entry) (m : RMap) (j : Nat) :
    ((sinkDown h m j).1).Perm h :=
  sinkDownGo_perm h.length h m j

theorem sinkDown_id (h : List Entry) (m : RMap) (j : Nat) (hp : heapProp h) :
    sinkDown h m j = (h, m) :=
  sinkDownGo_id h m j h.length hp

/-! ## extractMax correctness -/

/-- extractMax on a nonempty max-heap returns the root, leaves a max-heap one
entry shorter, and removes exactly one occurrence of the root. -/
theorem extractMax_spec (q : MaxHeapPriorityQueue) (hp : heapProp q.heap)
    (hne : q.heap ≠ []) :
    ∃ q2 : MaxHeapPriorityQueue,
      extractMax q = (some (nth q.heap 0), q2) ∧
      heapProp q2.heap ∧
      q2.heap.length = q.heap.length - 1 ∧
      (nth q.heap 0 :: q2.heap).Perm q.heap := by
  have hpos : 0 < q.heap.length := List.length_pos.mpr hne
  rcases Nat.lt_or_ge q.heap.length 2 with hsmall | h2
  · have h1 : q.heap.length = 1 := by omega
    refine ⟨⟨[], mapDelete q.requestMap (nth q.heap 0).id⟩, ?_, heapProp_nil,
      by simp [h1], ?_⟩
    · rw [extractMax, if_neg (by omega), if_pos h1]
    · obtain ⟨x, hx⟩ := List.length_eq_one.mp h1
      rw [hx]
      exact List.Perm.refl _
  · have hne0 : ¬ q.heap.length = 0 := by omega
    have hne1 : ¬ q.heap.length = 1 := by omega
    have hdl : (q.heap.dropLast).length = q.heap.length - 1 :=
      List.length_dropLast q.heap
    have hlen2 : (0:Nat) <
        ((q.heap.dropLast).set 0 (nth q.heap (q.heap.length - 1))).length := by
      rw [List.length_set, hdl]
      omega
    have hE : extractMax q = (some (nth q.heap 0),
        ⟨(sinkDown ((q.heap.dropLast).set 0 (nth q.heap (q.heap.length - 1)))
            (mapSet (mapDelete q.requestMap (nth q.heap 0).id)
              (nth ((q.heap.dropLast).set 0 (nth q.heap (q.heap.length - 1))) 0).id 0)
            0).1,
          (sinkDown ((q.heap.dropLast).set 0 (nth q.heap (q.heap.length - 1)))
            (mapSet (mapDelete q.requestMap (nth q.heap 0).id)
              (nth ((q.heap.dropLast).set 0 (nth q.heap (q.heap.length - 1))) 0).id 0)
            0).2⟩) := by
      simp only [extractMax]
      rw [if_neg hne0, if_neg hne1, if_pos hlen2]
    set hh : List Entry :=
      (q.heap.dropLast).set 0 (nth q.heap (q.heap.length - 1)) with hhdef
    set mm : RMap :=
      mapSet (mapDelete q.requestMap (nth q.heap 0).id) (nth hh 0).id 0 with mmdef
    have hhlen : hh.length = q.heap.length - 1 := by
      rw [hhdef, List.length_set, hdl]
    have hmid : ∀ x, 0 < x → x < hh.length → nth hh x = nth q.heap x := by
      intro x hx0 hxlen
      rw [hhdef, nth_set_ne _ _ _ _ (by omega), nth_dropLast _ _ (by omega)]
    have hinv : DownInv hh 0 0 := by
      refine ⟨le_refl 0, ?_, ?_⟩
      · intro i hi0 hilen hk hij
        have hpar0 : 0 < (i - 1) / 2 := Nat.pos_of_ne_zero hij
        rw [hmid i hi0 hilen, hmid ((i - 1) / 2) hpar0 (by omega)]
        exact hp i (by omega) hi0 (by omega)
      · intro h0
        exact absurd h0 (lt_irrefl 0)
    refine ⟨_, hE, ?_, ?_, ?_⟩
    · exact sinkDown_heapProp hh mm 0 0 hinv
    · have := (sinkDown_perm hh mm 0).length_eq
      rw [this, hhlen]
    · have hperm1 : ((sinkDown hh mm 0).1).Perm hh := sinkDown_perm hh mm 0
      have hperm2 : (nth q.heap 0 :: hh).Perm q.heap := by
        rw [List.perm_iff_count]
        intro b
        have hdlpos : 0 < (q.heap.dropLast).length := by omega
        have e1 := count_set_add q.heap.dropLast 0
          (nth q.heap (q.heap.length - 1)) b hdlpos
        rw [nth_dropLast _ _ (by omega)] at e1
        have e2 : q.heap.count b = (q.heap.dropLast).count b +
            (if nth q.heap (q.heap.length - 1) = b then 1 else 0) := by
          conv_lhs => rw [← dropLast_concat_nth q.heap hne]
          exact count_concat_entry _ _ _
        simp only [List.count_cons, beq_iff_eq]
        rw [← hhdef] at e1
        split_ifs at e1 e2 ⊢ <;> omega
      exact (hperm1.cons (nth q.heap 0)).trans hperm2

/-! ## Drain (repeated extractMax) correctness -/

/-- extractMax on an empty heap is a no-op returning none (helper). -/
theorem extractMax_empty (q : MaxHeapPriorityQueue) (hq : q.heap = []) :
    extractMax q = (none, q) := by
  unfold extractMax
  rw [hq]
  simp

/-- drainGo returns the heap contents in non-increasing score order whenever
the fuel dominates the heap size. -/
theorem drainGo_spec : ∀ (fuel : Nat) (q : MaxHeapPriorityQueue),
    q.heap.length ≤ fuel → heapProp q.heap →
    (drainGo fuel q).Perm q.heap ∧
    ((drainGo fuel q).map Entry.priorityScore).Sorted (· ≥ ·) := by
  intro fuel
  induction fuel with
  | zero =>
    intro q hlen hp
    have hq : q.heap = [] := List.length_eq_zero.mp (by omega)
    constructor
    · rw [hq]
      exact List.Perm.refl []
    · simp [drainGo]
  | succ fuel ih =>
    intro q hlen hp
    by_cases hq : q.heap = []
    · have hE : extractMax q = (none, q) := extractMax_empty q hq
      constructor
      · simp only [drainGo, hE]
        rw [hq]
      · simp only [drainGo, hE]
        simp
    · obtain ⟨q2, hE, hp2, hlen2, hperm⟩ := extractMax_spec q hp hq
      have hpos : 0 < q.heap.length := List.length_pos.mpr hq
      obtain ⟨ihp, ihs⟩ := ih q2 (by omega) hp2
      constructor
      · simp only [drainGo, hE]
        exact (ihp.cons _).trans hperm
      · simp only [drainGo, hE, List.map_cons]
        rw [List.sorted_cons]
        constructor
        · intro b hb
          obtain ⟨e, he, rfl⟩ := List.mem_map.mp hb
          have he2 : e ∈ q2.heap := ihp.mem_iff.mp he
          have he3 : e ∈ q.heap := hperm.mem_iff.mp (List.mem_cons_of_mem _ he2)
          exact mem_le_root q.heap hp e he3
        · exact ihs

/-! ## Claim C4 -/

/-- C4: after any sequence of insert calls on an initially empty queue,
draining the queue by repeated extractMax returns exactly the inserted
(rescored) entries, in non-increasing order of their stored priorityScore. -/
theorem C4_extract_sorted (ps : List (Entry × ℤ)) :
    ((drain (insertSeq emptyQ ps)).map Entry.priorityScore).Sorted (· ≥ ·) ∧
    (drain (insertSeq emptyQ ps)).Perm (ps.map fun p => rescore p.2 p.1) := by
  obtain ⟨hp, hperm⟩ := insertSeq_spec ps emptyQ heapProp_nil
  obtain ⟨hdp, hds⟩ := drainGo_spec (insertSeq emptyQ ps).heap.length
    (insertSeq emptyQ ps) (le_refl _) hp
  refine ⟨hds, ?_⟩
  exact hdp.trans (hperm.trans (by simp [emptyQ]))

/-! ## buildHeap correctness -/

/-- Above the last internal node the region heap property is vacuous. -/
theorem heapPropFrom_half (h : List Entry) : heapPropFrom h (h.length / 2) := by
  intro i hilen hi0 hk
  exfalso
  omega

/-- The sift-down invariant at position n itself, inside a region already
heap-ordered from n + 1 on. -/
theorem downInv_self (h : List Entry) (n : Nat) (hp : heapPropFrom h (n + 1)) :
    DownInv h n n := by
  refine ⟨le_refl n, ?_, ?_⟩
  · intro i hi0 hilen hk hij
    exact hp i hilen hi0 (by omega)
  · intro hn0 hkn
    exfalso
    omega

/-- The buildHeap sift loop turns a bottom-heap-ordered array into a full
max-heap, permuting its contents. -/
theorem heapifyFrom_spec : ∀ (n : Nat) (h : List Entry) (m : RMap),
    heapPropFrom h n →
    heapProp (heapifyFrom h m n).1 ∧ ((heapifyFrom h m n).1).Perm h := by
  intro n
  induction n with
  | zero =>
    intro h m hp
    exact ⟨hp, List.Perm.refl h⟩
  | succ n ih =>
    intro h m hp
    have hinv : DownInv h n n := downInv_self h n hp
    have h1 : heapPropFrom (sinkDown h m n).1 n := sinkDown_heapProp h m n n hinv
    obtain ⟨ha, hb⟩ := ih (sinkDown h m n).1 (sinkDown h m n).2 h1
    exact ⟨ha, hb.trans (sinkDown_perm h m n)⟩

/-- The buildHeap sift loop is the identity on an already heap-ordered array. -/
theorem heapifyFrom_id : ∀ (n : Nat) (h : List Entry) (m : RMap),
    heapProp h → heapifyFrom h m n = (h, m) := by
  intro n
  induction n with
  | zero =>
    intro h m hp
    rfl
  | succ n ih =>
    intro h m hp
    show heapifyFrom (sinkDown h m n).1 (sinkDown h m n).2 n = (h, m)
    rw [sinkDown_id h m n hp]
    exact ih h m hp

/-- buildHeap unfolded. -/
theorem buildHeap_eq (h : List Entry) (m : RMap) :
    buildHeap ⟨h, m⟩ = ⟨(heapifyFrom h m (h.length / 2)).1,
      rebuildMap (heapifyFrom h m (h.length / 2)).1
        (heapifyFrom h m (h.length / 2)).2⟩ := rfl

/-- buildHeap permutes the array and establishes the max-heap property. -/
theorem buildHeap_spec (h : List Entry) (m : RMap) :
    heapProp (buildHeap ⟨h, m⟩).heap ∧ ((buildHeap ⟨h, m⟩).heap).Perm h := by
  obtain ⟨ha, hb⟩ := heapifyFrom_spec (h.length / 2) h m (heapPropFrom_half h)
  exact ⟨ha, hb⟩

/-- buildHeap on an already heap-ordered array only rebuilds the map. -/
theorem buildHeap_of_heapProp (h : List Entry) (m : RMap) (hp : heapProp h) :
    buildHeap ⟨h, m⟩ = ⟨h, rebuildMap h m⟩ := by
  rw [buildHeap_eq, heapifyFrom_id (h.length / 2) h m hp]

/-! ## rebuildMap characterization -/

/-- Pointwise characterization of the map-rebuild fold: at every key, either
some position of the array fixes the value independently of the starting map,
or no position matches and the fold is the identity at that key. -/
theorem rebuildMapGo_point (h : List Entry) : ∀ (n : Nat) (k : Nat),
    (∃ i, i < n ∧ (nth h i).id = k ∧
      ∀ m : RMap, rebuildMapGo h m n k = some i) ∨
    ((∀ i, i < n → (nth h i).id ≠ k) ∧
      ∀ m : RMap, rebuildMapGo h m n k = m k) := by
  intro n
  induction n with
  | zero =>
    intro k
    right
    exact ⟨by omega, fun m => rfl⟩
  | succ n ih =>
    intro k
    by_cases hk : (nth h n).id = k
    · left
      refine ⟨n, by omega, hk, fun m => ?_⟩
      show mapSet (rebuildMapGo h m n) (nth h n).id n k = some n
      simp [mapSet, hk]
    · rcases ih k with ⟨i, hi, hid, hval⟩ | ⟨hnone, hval⟩
      · left
        refine ⟨i, by omega, hid, fun m => ?_⟩
        show mapSet (rebuildMapGo h m n) (nth h n).id n k = some i
        rw [mapSet_ne _ _ _ _ (fun hc => hk hc.symm)]
        exact hval m
      · right
        refine ⟨?_, fun m => ?_⟩
        · intro i hi
          rcases Nat.lt_or_ge i n with h1 | h1
          · exact hnone i h1
          · have hin : i = n := by omega
            rw [hin]
            exact hk
        · show mapSet (rebuildMapGo h m n) (nth h n).id n k = m k
          rw [mapSet_ne _ _ _ _ (fun hc => hk hc.symm)]
          exact hval m

/-- Rebuilding the map twice over the same array is the same as once. -/
theorem rebuildMap_idem (h : List Entry) (m : RMap) :
    rebuildMap h (rebuildMap h m) = rebuildMap h m := by
  funext k
  rcases rebuildMapGo_point h h.length k with ⟨i, hi, hid, hval⟩ | ⟨hnone, hval⟩
  · show rebuildMapGo h (rebuildMap h m) h.length k = rebuildMap h m k
    rw [hval (rebuildMap h m)]
    rw [rebuildMap, hval m]
  · show rebuildMapGo h (rebuildMap h m) h.length k = rebuildMap h m k
    rw [hval (rebuildMap h m)]

/-- With pairwise distinct ids, the rebuilt map sends the id at each
position to that position. -/
theorem rebuildMap_get (h : List Entry) (m : RMap)
    (hinj : ∀ i j, i < h.length → j < h.length →
      (nth h i).id = (nth h j).id → i = j)
    (i : Nat) (hi : i < h.length) :
    rebuildMap h m ((nth h i).id) = some i := by
  rcases rebuildMapGo_point h h.length ((nth h i).id) with
    ⟨j, hj, hid, hval⟩ | ⟨hnone, hval⟩
  · have hji : j = i := hinj j i hj hi hid
    show rebuildMapGo h m h.length ((nth h i).id) = some i
    rw [hval m, hji]
  · exact absurd rfl (hnone i hi)

/-! ## Rescoring lemmas -/

theorem rescore_idem (now : ℤ) (e : Entry) :
    rescore now (rescore now e) = rescore now e := rfl

theorem rescore_id_eq (now : ℤ) (e : Entry) : (rescore now e).id = e.id := rfl

theorem map_rescore_fix (now : ℤ) :
    ∀ l : List Entry, (∀ e ∈ l, rescore now e = e) → l.map (rescore now) = l := by
  intro l
  induction l with
  | nil => intro _; rfl
  | cons x t ih =>
    intro hfix
    have hx := hfix x (by simp)
    have ht := ih (fun e he => hfix e (by simp [he]))
    simp [hx, ht]

/-! ## Claim C8 -/

/-- C8: with the current time held constant, recalculateAllPriorities is
idempotent on the whole queue state: a second call changes neither the heap
array (positions or scores) nor the identifier index. -/
theorem C8_recalculate_idempotent (q : MaxHeapPriorityQueue) (now : ℤ) :
    recalculateAllPriorities (recalculateAllPriorities q now) now =
      recalculateAllPriorities q now := by
  obtain ⟨hp, hperm⟩ := buildHeap_spec (q.heap.map (rescore now)) q.requestMap
  set H : List Entry :=
    (heapifyFrom (q.heap.map (rescore now)) q.requestMap
      ((q.heap.map (rescore now)).length / 2)).1 with Hdef
  set M : RMap :=
    (heapifyFrom (q.heap.map (rescore now)) q.requestMap
      ((q.heap.map (rescore now)).length / 2)).2 with Mdef
  have hr1 : recalculateAllPriorities q now = ⟨H, rebuildMap H M⟩ := rfl
  have hpH : heapProp H := hp
  have hfix : ∀ e ∈ H, rescore now e = e := by
    intro e he
    have hmem : e ∈ q.heap.map (rescore now) := hperm.mem_iff.mp he
    obtain ⟨x, _, rfl⟩ := List.mem_map.mp hmem
    exact rescore_idem now x
  have hH : H.map (rescore now) = H := map_rescore_fix now H hfix
  calc recalculateAllPriorities (recalculateAllPriorities q now) now
      = buildHeap ⟨H.map (rescore now), rebuildMap H M⟩ := by rw [hr1]; rfl
    _ = buildHeap ⟨H, rebuildMap H M⟩ := by rw [hH]
    _ = ⟨H, rebuildMap H (rebuildMap H M)⟩ := buildHeap_of_heapProp H _ hpH
    _ = ⟨H, rebuildMap H M⟩ := by rw [rebuildMap_idem]
    _ = recalculateAllPriorities q now := hr1.symm

/-! ## Claim C5 -/

/-- Nodup ids give index injectivity of ids (helper). -/
theorem nodup_ids_inj (h : List Entry) (hnd : (h.map Entry.id).Nodup) :
    ∀ i j, i < h.length → j < h.length →
      (nth h i).id = (nth h j).id → i = j := by
  intro i j hi hj hid
  have hi2 : i < (h.map Entry.id).length := by simpa using hi
  have hj2 : j < (h.map Entry.id).length := by simpa using hj
  have hmi : (h.map Entry.id)[i] = (nth h i).id := by
    rw [List.getElem_map, nth_eq_getElem _ _ hi]
  have hmj : (h.map Entry.id)[j] = (nth h j).id := by
    rw [List.getElem_map, nth_eq_getElem _ _ hj]
  exact (List.Nodup.getElem_inj_iff hnd).mp (by rw [hmi, hmj, hid])

/-- C5 counterexample: loading over a non-empty queue does not clear the
identifier index.  After inserting an entry with id 1 and then calling
loadFromArray with a single entry of id 2, the heap holds only id 2, yet
id 1 is still present in the index (mapped to position 0). -/
theorem C5_counterexample :
    qC5.requestMap 1 = some 0 ∧ qC5.heap.map Entry.id = [2] :=
  ⟨rfl, rfl⟩

/-- C5 amended: loadFromArray replaces the heap array wholesale — afterwards
the heap holds exactly the given entries with freshly computed scores and
satisfies the max-heap property, and (when the given entries have pairwise
distinct ids) the index maps the id of every heap entry to its position; but
ids of pre-existing contents absent from the new entries may persist in the
index, which is overwritten per-id rather than cleared. -/
theorem C5_amended_loadFromArray (q : MaxHeapPriorityQueue)
    (entries : List Entry) (now : ℤ) :
    (loadFromArray q entries now).heap.Perm (entries.map (rescore now)) ∧
    heapProp (loadFromArray q entries now).heap ∧
    ((entries.map Entry.id).Nodup →
      ∀ i, i < (loadFromArray q entries now).heap.length →
        (loadFromArray q entries now).requestMap
          ((nth (loadFromArray q entries now).heap i).id) = some i) := by
  obtain ⟨hp, hperm⟩ := buildHeap_spec (entries.map (rescore now)) q.requestMap
  refine ⟨hperm, hp, ?_⟩
  intro hnodup i hi
  have hids : ((entries.map (rescore now)).map Entry.id) = entries.map Entry.id := by
    rw [List.map_map]
    rfl
  have hmapperm : ((loadFromArray q entries now).heap.map Entry.id).Perm
      (entries.map Entry.id) := by
    rw [← hids]
    exact hperm.map Entry.id
  have hnodupH : ((loadFromArray q entries now).heap.map Entry.id).Nodup :=
    hmapperm.nodup_iff.mpr hnodup
  exact rebuildMap_get _ _ (nodup_ids_inj _ hnodupH) i hi

/-- Witness for the amended C5: load two fresh entries over the non-empty
qPre. -/
theorem C5_amended_loadFromArray_witness :
    (loadFromArray qPre [eB, eC] 0).heap.Perm ([eB, eC].map (rescore 0)) ∧
    heapProp (loadFromArray qPre [eB, eC] 0).heap ∧
    (∀ i, i < (loadFromArray qPre [eB, eC] 0).heap.length →
      (loadFromArray qPre [eB, eC] 0).requestMap
        ((nth (loadFromArray qPre [eB, eC] 0).heap i).id) = some i) := by
  obtain ⟨h1, h2, h3⟩ := C5_amended_loadFromArray qPre [eB, eC] 0
  exact ⟨h1, h2, h3 (by decide)⟩

/-! ## Claim C1 -/

/-- One bubbleUp step with a failing loop condition stops immediately. -/
theorem bubbleUpGo_stop (h : List Entry) (m : RMap) (i fuel : Nat)
    (hc : ¬(hasParent i = true ∧
      (parentE h i).priorityScore < (nth h i).priorityScore)) :
    bubbleUpGo h m i (fuel + 1) = (h, m) := by
  simp only [bubbleUpGo]
  rw [if_neg hc]

/-- Insert unfolded to its bubbleUp call at the appended position. -/
theorem insert_eq (q : MaxHeapPriorityQueue) (e : Entry) (now : ℤ) :
    (insert q e now).1 = ⟨(bubbleUp (q.heap ++ [rescore now e])
        (mapSet q.requestMap (rescore now e).id q.heap.length) q.heap.length).1,
      (bubbleUp (q.heap ++ [rescore now e])
        (mapSet q.requestMap (rescore now e).id q.heap.length)
        q.heap.length).2⟩ := by
  simp only [insert, List.length_append, List.length_singleton,
    Nat.add_sub_cancel]

/-- Concrete score of eA at instant 0. -/
theorem scoreA : calculatePriority 1 5 0 0 = 55 := by
  simp only [calculatePriority, round2, jsRound_eq, WEIGHT_VULNERABILITY,
    WEIGHT_MEDICAL_URGENCY, WEIGHT_WAITING_TIME]
  norm_num

/-- Concrete score of eB at instant 0. -/
theorem scoreB : calculatePriority 2 2 0 0 = 30 := by
  simp only [calculatePriority, round2, jsRound_eq, WEIGHT_VULNERABILITY,
    WEIGHT_MEDICAL_URGENCY, WEIGHT_WAITING_TIME]
  norm_num

/-- Concrete score of eC at instant 0. -/
theorem scoreC : calculatePriority 3 1 0 0 = 25 := by
  simp only [calculatePriority, round2, jsRound_eq, WEIGHT_VULNERABILITY,
    WEIGHT_MEDICAL_URGENCY, WEIGHT_WAITING_TIME]
  norm_num

/-- Rescoring eA at instant 0 yields the literal entryA. -/
theorem rescoreA : rescore 0 eA = entryA := by
  show Entry.mk 1 1 5 0 (calculatePriority 1 5 0 0) = Entry.mk 1 1 5 0 55
  rw [scoreA]

/-- Rescoring eB at instant 0 yields the literal entryB. -/
theorem rescoreB : rescore 0 eB = entryB := by
  show Entry.mk 2 2 2 0 (calculatePriority 2 2 0 0) = Entry.mk 2 2 2 0 30
  rw [scoreB]

/-- Rescoring eC at instant 0 yields the literal entryC. -/
theorem rescoreC : rescore 0 eC = entryC := by
  show Entry.mk 3 3 1 0 (calculatePriority 3 1 0 0) = Entry.mk 3 3 1 0 25
  rw [scoreC]

/-- First insert of the C1 run. -/
theorem C1_step1 : (insert emptyQ eA 0).1 =
    ⟨[entryA], mapSet emptyMap 1 0⟩ := by
  rw [insert_eq, rescoreA]
  rfl

/-- Second insert of the C1 run: entryB stays below entryA. -/
theorem C1_step2 :
    (insert (⟨[entryA], mapSet emptyMap 1 0⟩ : MaxHeapPriorityQueue) eB 0).1 =
    ⟨[entryA, entryB], mapSet (mapSet emptyMap 1 0) 2 1⟩ := by
  rw [insert_eq, rescoreB]
  have hstop : bubbleUpGo [entryA, entryB] (mapSet (mapSet emptyMap 1 0) 2 1)
      1 1 = ([entryA, entryB], mapSet (mapSet emptyMap 1 0) 2 1) := by
    apply bubbleUpGo_stop
    rintro ⟨-, hlt⟩
    have hlt2 : (55 : ℚ) < 30 := hlt
    norm_num at hlt2
  show (⟨(bubbleUpGo [entryA, entryB] (mapSet (mapSet emptyMap 1 0) 2 1) 1 1).1,
      (bubbleUpGo [entryA, entryB] (mapSet (mapSet emptyMap 1 0) 2 1) 1 1).2⟩ :
    MaxHeapPriorityQueue) =
    ⟨[entryA, entryB], mapSet (mapSet emptyMap 1 0) 2 1⟩
  rw [hstop]

/-- Third insert of the C1 run: entryC stays below entryA. -/
theorem C1_step3 :
    (insert (⟨[entryA, entryB], mapSet (mapSet emptyMap 1 0) 2 1⟩ :
      MaxHeapPriorityQueue) eC 0).1 =
    ⟨[entryA, entryB, entryC], mapABC⟩ := by
  rw [insert_eq, rescoreC]
  have hstop : bubbleUpGo [entryA, entryB, entryC] mapABC 2 2 =
      ([entryA, entryB, entryC], mapABC) := by
    apply bubbleUpGo_stop
    rintro ⟨-, hlt⟩
    have hlt2 : (55 : ℚ) < 25 := hlt
    norm_num at hlt2
  show (⟨(bubbleUpGo [entryA, entryB, entryC] mapABC 2 2).1,
      (bubbleUpGo [entryA, entryB, entryC] mapABC 2 2).2⟩ :
    MaxHeapPriorityQueue) = ⟨[entryA, entryB, entryC], mapABC⟩
  rw [hstop]

/-- removeById on the middle entry of the C1 run: the swapped-in entryC does
not move during the re-sift, and its index entry is left stale (pointing at
position 2 of a two-element array). -/
theorem C1_step4 :
    removeById (⟨[entryA, entryB, entryC], mapABC⟩ : MaxHeapPriorityQueue) 2 =
    (some entryB, ⟨[entryA, entryC], mapDelete mapABC 2⟩) := by
  have hbu : bubbleUpGo [entryA, entryC] (mapDelete mapABC 2) 1 1 =
      ([entryA, entryC], mapDelete mapABC 2) := by
    apply bubbleUpGo_stop
    rintro ⟨-, hlt⟩
    have hlt2 : (55 : ℚ) < 25 := hlt
    norm_num at hlt2
  show (some (nth [entryA, entryB, entryC] 1),
      (⟨(bubbleUpGo [entryA, entryC] (mapDelete mapABC 2) 1 1).1,
        (bubbleUpGo [entryA, entryC] (mapDelete mapABC 2) 1 1).2⟩ :
      MaxHeapPriorityQueue)) =
    (some entryB, ⟨[entryA, entryC], mapDelete mapABC 2⟩)
  rw [hbu]
  rfl

/-- The final state of the C1 run. -/
theorem C1_final : qC1 = ⟨[entryA, entryC], mapDelete mapABC 2⟩ := by
  have hseq : insertSeq emptyQ [(eA, 0), (eB, 0), (eC, 0)] =
      ⟨[entryA, entryB, entryC], mapABC⟩ := by
    show (insert (insert (insert emptyQ eA 0).1 eB 0).1 eC 0).1 = _
    rw [C1_step1, C1_step2, C1_step3]
  show (removeById (insertSeq emptyQ [(eA, 0), (eB, 0), (eC, 0)]) 2).2 = _
  rw [hseq, C1_step4]

/-- C1: the bijection between heap ids and positions is broken by removeById.
After inserting ids 1, 2, 3 (scores 55, 30, 25) and removing id 2, the heap
array is [id 1, id 3] with id 3 at position 1, yet the identifier index still
maps id 3 to position 2 — removeById never re-registers the entry it swaps
into the vacated slot when the subsequent sifts perform no swap. -/
theorem C1_removeById_breaks_index :
    qC1.heap.map Entry.id = [1, 3] ∧ qC1.requestMap 3 = some 2 ∧
    ¬ mapBijective qC1 := by
  refine ⟨by rw [C1_final]; rfl, by rw [C1_final]; rfl, ?_⟩
  rintro ⟨hfwd, -⟩
  have h1 := hfwd 1 (by rw [C1_final]; decide)
  rw [C1_final] at h1
  have h2 : (some 2 : Option Nat) = some 1 := h1
  simp at h2
